import Mathlib

/- Shallow embedding of the text-layout and rasterization core of
   backend/main.py (functions wrap_text_lines, draw_line_with_style,
   draw_layout_text, draw_text_preview, and the precondition phases of the
   /fonts/preview and /fonts/layout endpoints).

   Python strings are modelled as `List Char`; the Pillow measurement
   primitive `measure_text(draw, text, font)` is an abstract function
   `m : List Char → ℚ`; pixel arithmetic is exact rational arithmetic. -/

/-- Whitespace class used by Python's `str.isspace` and no-argument
`str.split`, restricted to the ASCII whitespace characters (space, tab,
newline, carriage return, vertical tab, form feed). -/
def pyIsSpace (c : Char) : Bool :=
  c = ' ' || c = '\t' || c = '\n' || c = '\r' || c = Char.ofNat 11 || c = Char.ofNat 12

/-- Helper for `pySplit`: scans the string, accumulating the current word. -/
def pySplitAux : List Char → List Char → List (List Char)
  | [], acc => if acc = [] then [] else [acc]
  | c :: rest, acc =>
    if pyIsSpace c then
      if acc = [] then pySplitAux rest [] else acc :: pySplitAux rest []
    else
      pySplitAux rest (acc ++ [c])

/-- Python `str.split()` with no separator: split on runs of whitespace,
producing no empty words. -/
def pySplit (s : List Char) : List (List Char) :=
  pySplitAux s []

/-- Python `str.strip()`: remove leading and trailing whitespace. -/
def pyStrip (l : List Char) : List Char :=
  ((l.dropWhile pyIsSpace).reverse.dropWhile pyIsSpace).reverse

/-- Concatenation of a list of strings with a single space between pieces,
i.e. Python `" ".join(lines)`; used to state the reconstruction property. -/
def joinSpace : List (List Char) → List Char
  | [] => []
  | [l] => l
  | l :: ls => l ++ ' ' :: joinSpace ls

/-- The character-by-character loop shared by the no-whitespace branch of
`wrap_text_lines` and its oversized-word fallback: state is the pair
(lines emitted so far, current line under construction). -/
def charFoldAux (m : List Char → ℚ) (maxWidth : ℚ) :
    List Char → List (List Char) → List Char → List (List Char) × List Char
  | [], lines, current => (lines, current)
  | c :: cs, lines, current =>
    if m (current ++ [c]) ≤ maxWidth ∨ current = [] then
      charFoldAux m maxWidth cs lines (current ++ [c])
    else
      charFoldAux m maxWidth cs (lines ++ [current]) [c]

/-- The word loop of `wrap_text_lines`: greedy word wrap with the
character-level fallback (via `charFoldAux`) for a word that alone exceeds
`maxWidth`. -/
def wrapWordsAux (m : List Char → ℚ) (maxWidth : ℚ) :
    List (List Char) → List (List Char) → List Char → List (List Char)
  | [], lines, current => if current = [] then lines else lines ++ [current]
  | word :: ws, lines, current =>
    if m (pyStrip (current ++ ' ' :: word)) ≤ maxWidth then
      wrapWordsAux m maxWidth ws lines (pyStrip (current ++ ' ' :: word))
    else
      if m word ≤ maxWidth then
        wrapWordsAux m maxWidth ws (if current = [] then lines else lines ++ [current]) word
      else
        let r := charFoldAux m maxWidth word (if current = [] then lines else lines ++ [current]) []
        wrapWordsAux m maxWidth ws r.1 r.2

/-- Embedding of `wrap_text_lines(draw, text, max_width, font)`:
empty text yields one empty line; text with no whitespace at all is broken
character by character; otherwise greedy word wrap over `text.split()`. -/
def wrap_text_lines (m : List Char → ℚ) (text : List Char) (maxWidth : ℚ) :
    List (List Char) :=
  if text = [] then [[]]
  else if text.any pyIsSpace = false then
    let r := charFoldAux m maxWidth text [] []
    if r.2 = [] then r.1 else r.1 ++ [r.2]
  else
    wrapWordsAux m maxWidth (pySplit text) [] []

structure TextBoxPayload where
  x : ℚ
  y : ℚ
  width : ℚ
  height : ℚ
deriving DecidableEq

structure TextStylePayload where
  fontSize : ℤ
  color : String
  fontWeight : ℤ
  fontStyle : String
  textDecoration : String
  textAlign : String
deriving DecidableEq

structure TextBlockPayload where
  key : String
  text : List Char
  box : TextBoxPayload
  style : TextStylePayload
deriving DecidableEq

/-- Record of one `draw_line_with_style` call emitted by `draw_layout_text`:
the laid-out line and its draw position.  The remaining arguments of the call
(font, color, underline, bold, italic, line height) are constants of the
enclosing block and are not repeated here. -/
structure DrawnLine where
  text : List Char
  drawX : ℚ
  drawY : ℚ
deriving DecidableEq

/-- Horizontal draw position computed by `draw_layout_text`:
`draw_x = x`, overridden for `"center"` and `"right"`. -/
def alignX (align : String) (x w lineWidth : ℚ) : ℚ :=
  if align = "center" then x + (w - lineWidth) / 2
  else if align = "right" then x + (w - lineWidth)
  else x

/-- The per-line loop of `draw_layout_text`: draws lines while the vertical
cursor plus the line height stays within `yBottom = y + h`; returns the
emitted draw calls, the final cursor, and whether the early `return` on
vertical overflow fired. -/
def drawLinesLoop (m : List Char → ℚ) (align : String) (x w lineHeight yBottom : ℚ) :
    List (List Char) → ℚ → List DrawnLine × ℚ × Bool
  | [], cursorY => ([], cursorY, false)
  | line :: rest, cursorY =>
    if yBottom < cursorY + lineHeight then ([], cursorY, true)
    else
      let r := drawLinesLoop m align x w lineHeight yBottom rest (cursorY + lineHeight)
      (⟨line, alignX align x w (m line), cursorY⟩ :: r.1, r.2)

/-- The paragraph loop of `draw_layout_text` in wrap mode: each paragraph is
wrapped to the box width, its lines drawn by `drawLinesLoop`, and an extra
`0.2 × lineHeight` is added to the cursor after every paragraph except the
last; the overflow early return aborts the whole block. -/
def wrapParasLoop (m : List Char → ℚ) (align : String) (x w lineHeight yBottom : ℚ) :
    List (List Char) → ℚ → List DrawnLine
  | [], _ => []
  | p :: rest, cursorY =>
    let r := drawLinesLoop m align x w lineHeight yBottom (wrap_text_lines m p w) cursorY
    if r.2.2 = true then r.1
    else
      r.1 ++ wrapParasLoop m align x w lineHeight yBottom rest
        (if rest = [] then r.2.1 else r.2.1 + lineHeight * (1/5))

/-- Python `str.split("\n")`. -/
def splitNl : List Char → List (List Char)
  | [] => [[]]
  | c :: rest =>
    if c = '\n' then [] :: splitNl rest
    else
      match splitNl rest with
      | [] => [[c]]
      | p :: ps => (c :: p) :: ps

/-- Embedding of `draw_layout_text(image, block, font_path, respect_line_breaks)`:
resolves the fractional box against the canvas dimensions, derives
`line_height = fontSize * 1.2`, applies the `textAlign or "left"` fallback,
splits the text on `"\n"`, and emits the sequence of `draw_line_with_style`
calls (respect-line-breaks mode draws each segment as one line; wrap mode
wraps each paragraph and separates paragraphs by an extra fifth of a line
height). -/
def draw_layout_text (m : List Char → ℚ) (imgWidth imgHeight : ℚ)
    (block : TextBlockPayload) (respectLineBreaks : Bool) : List DrawnLine :=
  let lineHeight := (block.style.fontSize : ℚ) * (6/5)
  let x := block.box.x * imgWidth
  let y := block.box.y * imgHeight
  let w := block.box.width * imgWidth
  let h := block.box.height * imgHeight
  let align := if block.style.textAlign = "" then "left" else block.style.textAlign
  let paragraphs := splitNl block.text
  if respectLineBreaks = true then
    (drawLinesLoop m align x w lineHeight (y + h) paragraphs y).1
  else
    wrapParasLoop m align x w lineHeight (y + h) paragraphs y

/-- Python `int(...)` applied to a float: truncation toward zero. -/
def pyInt (q : ℚ) : ℤ := if 0 ≤ q then ⌊q⌋ else ⌈q⌉

/-- One `temp_draw.text((dx, dy), text, ...)` stamp inside the off-screen
italic buffer. -/
structure TempStamp where
  dx : ℤ
  dy : ℤ
  text : List Char
  color : String
deriving DecidableEq

/-- Pixel operations `draw_line_with_style` performs on the target canvas:
a direct glyph stamp, the paste of the sheared off-screen buffer (recorded
with the buffer's size, shear factor and inner stamps), and a drawn rule. -/
inductive CanvasOp where
  | text (tx ty : ℚ) (txt : List Char) (color : String)
  | pasteSheared (pasteX pasteY bufWidth bufHeight : ℤ) (shear : ℚ)
      (stamps : List TempStamp)
  | line (x0 y0 x1 y1 : ℚ) (color : String) (strokeWidth : ℤ)
deriving DecidableEq

def isTextOp : CanvasOp → Bool
  | .text _ _ _ _ => true
  | _ => false

def isPasteOp : CanvasOp → Bool
  | .pasteSheared _ _ _ _ _ _ => true
  | _ => false

def isRuleOp : CanvasOp → Bool
  | .line _ _ _ _ _ _ => true
  | _ => false

/-- Embedding of `draw_line_with_style(base, draw, text, x, y, font, color,
underline, bold, italic, line_height)` as the list of canvas operations it
performs, in order.  The italic branch renders the (bold-dependent) stamps
into an off-screen buffer of width `int(measure) + 20` and height
`int(1.2 * line_height)`, shears it by `-0.25` and pastes it at
`(int(x), int(y))`; the non-italic branch stamps directly; the underline, if
requested, is drawn last, directly on the canvas. -/
def draw_line_with_style (m : List Char → ℚ) (text : List Char) (x y : ℚ)
    (color : String) (underline bold italic : Bool) (lineHeight : ℚ) :
    List CanvasOp :=
  let offsets : List (ℤ × ℤ) := if bold then [(0, 0), (1, 0), (0, 1)] else [(0, 0)]
  (if italic then
    [CanvasOp.pasteSheared (pyInt x) (pyInt y) (pyInt (m text) + 20)
      (pyInt (lineHeight * (6/5))) (-(1/4))
      (offsets.map fun o => ⟨o.1, o.2, text, color⟩)]
  else
    offsets.map fun o => CanvasOp.text (x + (o.1 : ℚ)) (y + (o.2 : ℚ)) text color)
  ++ (if underline then
    [CanvasOp.line x (y + lineHeight * (17/20)) (x + m text) (y + lineHeight * (17/20))
      color (max 1 (pyInt (lineHeight * (3/50))))]
  else [])

/-- Initial fill of a canvas: either fully transparent or a solid color. -/
inductive Fill where
  | transparent
  | color (c : String)
deriving DecidableEq

/-- Python `str.lower()` restricted to ASCII input. -/
def pyLower (s : String) : String := String.mk (s.data.map Char.toLower)

/-- Canvas allocation of `draw_text_preview`: the pixel mode and initial fill
chosen from the requested output format and background. -/
def draw_text_preview_canvas (imageFormat background : String) : String × Fill :=
  if pyLower imageFormat = "png" then ("RGBA", Fill.transparent)
  else ("RGB", Fill.color background)

structure LayoutRequestModel where
  font : String
  width : ℤ
  height : ℤ
  background : String
  format : String
  blocks : List TextBlockPayload
  respectLineBreaks : Bool
deriving DecidableEq

/-- Precondition phase of `POST /fonts/preview` (`fonts_preview`): true iff
the request passes the dimension and format checks, after which the canvas is
allocated and rendering begins. -/
def fonts_preview_begins_drawing (size width height : ℤ) (format : String) : Bool :=
  if size ≤ 0 ∨ width ≤ 0 ∨ height ≤ 0 then false
  else if pyLower format ≠ "png" ∧ pyLower format ≠ "webp" then false
  else true

/-- Precondition phase of `POST /fonts/layout` (`fonts_layout`): true iff the
request passes the dimension and format checks, after which the canvas is
allocated and block drawing begins.  The blocks themselves (in particular
their font sizes) are not inspected by this phase. -/
def fonts_layout_begins_drawing (req : LayoutRequestModel) : Bool :=
  if req.width ≤ 0 ∨ req.height ≤ 0 then false
  else if pyLower req.format ≠ "webp" ∧ pyLower req.format ≠ "png" then false
  else true

/-- Layout request with positive canvas dimensions and a valid format but a
nonpositive block font size. -/
def zeroFontSizeLayoutRequest : LayoutRequestModel :=
  { font := "a.ttf", width := 100, height := 100, background := "#000000",
    format := "png",
    blocks := [{ key := "k", text := ['h', 'i'],
                 box := { x := 0, y := 0, width := 1, height := 1 },
                 style := { fontSize := 0, color := "#ffffff", fontWeight := 600,
                            fontStyle := "normal", textDecoration := "none",
                            textAlign := "left" } }],
    respectLineBreaks := false }

/-- Description, taken from the spec's words, of a run of already-final lines
drawn at consecutive `lineHeight` steps from a starting cursor. -/
def specLines (lineHeight : ℚ) : List (List Char) → ℚ → List (List Char × ℚ)
  | [], _ => []
  | l :: ls, cursorY => (l, cursorY) :: specLines lineHeight ls (cursorY + lineHeight)

/-- Description, taken from the spec's words, of wrap-mode paragraph layout:
each paragraph's wrapped lines occupy consecutive `lineHeight` steps, and an
extra `0.2 × lineHeight` gap separates consecutive paragraphs. -/
def specWrapParas (m : List Char → ℚ) (w lineHeight : ℚ) :
    List (List Char) → ℚ → List (List Char × ℚ)
  | [], _ => []
  | p :: rest, cursorY =>
    specLines lineHeight (wrap_text_lines m p w) cursorY ++
      specWrapParas m w lineHeight rest
        (cursorY + (wrap_text_lines m p w).length * lineHeight + lineHeight * (1/5))

/-- Total vertical extent needed to lay out all paragraphs without clipping in
wrap mode: one `lineHeight` per produced line plus a fifth of a `lineHeight`
between consecutive paragraphs. -/
def wrapHeightNeeded (m : List Char → ℚ) (w lineHeight : ℚ) : List (List Char) → ℚ
  | [] => 0
  | p :: rest =>
    (wrap_text_lines m p w).length * lineHeight +
      (if rest = [] then 0 else lineHeight * (1/5)) + wrapHeightNeeded m w lineHeight rest

/-- A word as produced by `pySplit`: nonempty and free of whitespace. -/
def goodWord (l : List Char) : Prop := l ≠ [] ∧ ∀ c ∈ l, pyIsSpace c = false

/- ===== Helper lemmas ===== -/

theorem charFoldAux_bound (m : List Char → ℚ) (maxWidth : ℚ) (cs : List Char) :
    ∀ (lines : List (List Char)) (current : List Char),
      (∀ l ∈ lines, m l ≤ maxWidth ∨ l.length = 1) →
      (current = [] ∨ m current ≤ maxWidth ∨ current.length = 1) →
      (∀ l ∈ (charFoldAux m maxWidth cs lines current).1,
          m l ≤ maxWidth ∨ l.length = 1) ∧
      ((charFoldAux m maxWidth cs lines current).2 = [] ∨
        m (charFoldAux m maxWidth cs lines current).2 ≤ maxWidth ∨
        (charFoldAux m maxWidth cs lines current).2.length = 1) := by
  induction cs with
  | nil =>
    intro lines current hl hc
    exact ⟨hl, hc⟩
  | cons c cs ih =>
    intro lines current hl hc
    rw [charFoldAux]
    split
    · next h =>
      rcases h with h | h
      · exact ih lines (current ++ [c]) hl (Or.inr (Or.inl h))
      · subst h
        exact ih lines ([] ++ [c]) hl (Or.inr (Or.inr rfl))
    · next h =>
      push_neg at h
      apply ih (lines ++ [current]) [c]
      · intro l hl2
        rcases List.mem_append.mp hl2 with h1 | h1
        · exact hl l h1
        · rcases List.mem_singleton.mp h1 with rfl
          rcases hc with h2 | h2
          · exact absurd h2 h.2
          · exact h2
      · exact Or.inr (Or.inr rfl)

theorem wrapWordsAux_bound (m : List Char → ℚ) (maxWidth : ℚ) (ws : List (List Char)) :
    ∀ (lines : List (List Char)) (current : List Char),
      (∀ l ∈ lines, m l ≤ maxWidth ∨ l.length = 1) →
      (current = [] ∨ m current ≤ maxWidth ∨ current.length = 1) →
      ∀ l ∈ wrapWordsAux m maxWidth ws lines current, m l ≤ maxWidth ∨ l.length = 1 := by
  induction ws with
  | nil =>
    intro lines current hl hc l hmem
    rw [wrapWordsAux] at hmem
    split at hmem
    · exact hl l hmem
    · next hcur =>
      rcases List.mem_append.mp hmem with h1 | h1
      · exact hl l h1
      · rcases List.mem_singleton.mp h1 with rfl
        rcases hc with h2 | h2
        · exact absurd h2 hcur
        · exact h2
  | cons word ws ih =>
    intro lines current hl hc l hmem
    have hflush : ∀ l ∈ (if current = [] then lines else lines ++ [current]),
        m l ≤ maxWidth ∨ l.length = 1 := by
      split
      · exact hl
      · next hcur =>
        intro l hl2
        rcases List.mem_append.mp hl2 with h1 | h1
        · exact hl l h1
        · rcases List.mem_singleton.mp h1 with rfl
          rcases hc with h2 | h2
          · exact absurd h2 hcur
          · exact h2
    rw [wrapWordsAux] at hmem
    split at hmem
    · next h => exact ih lines _ hl (Or.inr (Or.inl h)) l hmem
    · split at hmem
      · next h => exact ih _ word hflush (Or.inr (Or.inl h)) l hmem
      · have hr := charFoldAux_bound m maxWidth word
          (if current = [] then lines else lines ++ [current]) [] hflush (Or.inl rfl)
        exact ih _ _ hr.1 hr.2 l hmem

/-- C1: for every paragraph string, every width `w > 0` and every metrics
function (assigning width 0 to the empty string), each line produced by
`wrap_text_lines` either has measured advance width at most `w` or is a
single character (the unbreakable-run exception); no multi-character line
exceeds `w`. -/
theorem wrap_lines_fit (m : List Char → ℚ) (text : List Char) (w : ℚ)
    (hw : 0 < w) (hm : m [] = 0) :
    ∀ line ∈ wrap_text_lines m text w,
      (m line ≤ w ∨ line.length = 1) ∧ (2 ≤ line.length → m line ≤ w) := by
  have main : ∀ line ∈ wrap_text_lines m text w, m line ≤ w ∨ line.length = 1 := by
    intro line hmem
    simp only [wrap_text_lines] at hmem
    split at hmem
    · rcases List.mem_singleton.mp hmem with rfl
      exact Or.inl (by rw [hm]; exact le_of_lt hw)
    · split at hmem
      · have hr := charFoldAux_bound m w text [] []
          (by intro l h; cases h) (Or.inl rfl)
        revert hmem
        split
        · intro hmem; exact hr.1 line hmem
        · next hne =>
          intro hmem
          rcases List.mem_append.mp hmem with h1 | h1
          · exact hr.1 line h1
          · rcases List.mem_singleton.mp h1 with rfl
            rcases hr.2 with h2 | h2
            · exact absurd h2 hne
            · exact h2
      · exact wrapWordsAux_bound m w (pySplit text) [] []
          (by intro l h; cases h) (Or.inl rfl) line hmem
  intro line hmem
  refine ⟨main line hmem, fun h2 => ?_⟩
  rcases main line hmem with h | h
  · exact h
  · omega

/-- Witness for `wrap_lines_fit` at the concrete paragraph `"ab c"`, width 2,
and character-count metrics. -/
theorem wrap_lines_fit_witness :
    (0 : ℚ) < 2 ∧ (fun s : List Char => (s.length : ℚ)) [] = 0 ∧
      ∀ line ∈ wrap_text_lines (fun s : List Char => (s.length : ℚ)) ['a', 'b', ' ', 'c'] 2,
        ((fun s : List Char => (s.length : ℚ)) line ≤ 2 ∨ line.length = 1) ∧
        (2 ≤ line.length → (fun s : List Char => (s.length : ℚ)) line ≤ 2) :=
  ⟨by norm_num, rfl,
    wrap_lines_fit (fun s : List Char => (s.length : ℚ)) ['a', 'b', ' ', 'c'] 2
      (by norm_num) rfl⟩

theorem pySplitAux_all_space (s : List Char) (h : ∀ c ∈ s, pyIsSpace c = true) :
    pySplitAux s [] = [] := by
  induction s with
  | nil => rfl
  | cons c cs ih =>
    have hc := h c (List.mem_cons_self c cs)
    simp only [pySplitAux, hc, if_pos rfl, if_true]
    exact ih fun c' hc' => h c' (List.mem_cons_of_mem c hc')

/-- C10: a nonempty all-whitespace paragraph produces zero lines — not one
empty line — while the empty paragraph produces exactly one empty line; as a
consequence the per-line loop of `draw_layout_text` draws nothing for such a
paragraph and leaves the vertical cursor unchanged, so it contributes no
line height to the block (only the inter-paragraph gap). -/
theorem wrap_whitespace_only (m : List Char → ℚ) (text : List Char) (maxWidth : ℚ)
    (align : String) (x w lineHeight yBottom cursorY : ℚ)
    (hne : text ≠ []) (hsp : ∀ c ∈ text, pyIsSpace c = true) :
    wrap_text_lines m text maxWidth = [] ∧
    wrap_text_lines m [] maxWidth = [[]] ∧
    drawLinesLoop m align x w lineHeight yBottom (wrap_text_lines m text maxWidth) cursorY
      = ([], cursorY, false) := by
  have hany : text.any pyIsSpace = true := by
    cases text with
    | nil => exact absurd rfl hne
    | cons c cs => simp [List.any_cons, hsp c (List.mem_cons_self c cs)]
  have h1 : wrap_text_lines m text maxWidth = [] := by
    simp only [wrap_text_lines, if_neg hne, hany]
    simp only [pySplit, pySplitAux_all_space text hsp]
    rfl
  refine ⟨h1, rfl, ?_⟩
  rw [h1]
  rfl

/-- Witness for `wrap_whitespace_only` at the single-space paragraph. -/
theorem wrap_whitespace_only_witness :
    ([' '] : List Char) ≠ [] ∧ (∀ c ∈ ([' '] : List Char), pyIsSpace c = true) ∧
    wrap_text_lines (fun s : List Char => (s.length : ℚ)) [' '] 5 = [] ∧
    wrap_text_lines (fun s : List Char => (s.length : ℚ)) [] 5 = [[]] ∧
    drawLinesLoop (fun s : List Char => (s.length : ℚ)) "left" 0 10 12 100
      (wrap_text_lines (fun s : List Char => (s.length : ℚ)) [' '] 5) 0 = ([], 0, false) :=
  ⟨by decide, by decide,
    wrap_whitespace_only (fun s : List Char => (s.length : ℚ)) [' '] 5 "left" 0 10 12 100 0
      (by decide) (by decide)⟩

theorem splitNl_no_newline (text : List Char) (h : '\n' ∉ text) :
    splitNl text = [text] := by
  induction text with
  | nil => rfl
  | cons c cs ih =>
    have hc : ¬(c = '\n') := fun hc => h (hc ▸ List.mem_cons_self c cs)
    rw [splitNl, if_neg hc, ih fun hm => h (List.mem_cons_of_mem c hm)]

theorem drawLinesLoop_mem (m : List Char → ℚ) (align : String)
    (x w lineHeight yBottom : ℚ) (ls : List (List Char)) :
    ∀ (cursorY : ℚ) (d : DrawnLine),
      d ∈ (drawLinesLoop m align x w lineHeight yBottom ls cursorY).1 →
      d.drawX = alignX align x w (m d.text) ∧ d.drawY + lineHeight ≤ yBottom := by
  induction ls with
  | nil =>
    intro cY d hd
    simp [drawLinesLoop] at hd
  | cons l rest ih =>
    intro cY d hd
    rw [drawLinesLoop] at hd
    split at hd
    · simp at hd
    · next hnb =>
      rcases List.mem_cons.mp hd with rfl | hd'
      · exact ⟨rfl, by push_neg at hnb; simpa using hnb⟩
      · exact ih (cY + lineHeight) d hd'

theorem wrapParasLoop_mem (m : List Char → ℚ) (align : String)
    (x w lineHeight yBottom : ℚ) (ps : List (List Char)) :
    ∀ (cursorY : ℚ) (d : DrawnLine),
      d ∈ wrapParasLoop m align x w lineHeight yBottom ps cursorY →
      d.drawX = alignX align x w (m d.text) ∧ d.drawY + lineHeight ≤ yBottom := by
  induction ps with
  | nil =>
    intro cY d hd
    simp [wrapParasLoop] at hd
  | cons p rest ih =>
    intro cY d hd
    rw [wrapParasLoop] at hd
    split at hd
    · exact drawLinesLoop_mem m align x w lineHeight yBottom _ cY d hd
    · rcases List.mem_append.mp hd with h1 | h1
      · exact drawLinesLoop_mem m align x w lineHeight yBottom _ cY d h1
      · exact ih _ d h1

theorem drawLinesLoop_take (m : List Char → ℚ) (align : String)
    (x w lineHeight yBottom : ℚ) (ls : List (List Char)) :
    ∀ (cursorY : ℚ) (k : ℕ),
      (∀ j : ℕ, j < k → cursorY + j * lineHeight + lineHeight ≤ yBottom) →
      yBottom < cursorY + k * lineHeight + lineHeight →
      (drawLinesLoop m align x w lineHeight yBottom ls cursorY).1.map (fun d => d.text)
        = ls.take k := by
  induction ls with
  | nil =>
    intro cY k h1 h2
    simp [drawLinesLoop]
  | cons l rest ih =>
    intro cY k h1 h2
    cases k with
    | zero =>
      rw [drawLinesLoop, if_pos]
      · simp
      · push_cast at h2
        linarith
    | succ k' =>
      have hfit : cY + lineHeight ≤ yBottom := by
        have := h1 0 (Nat.succ_pos k')
        push_cast at this
        linarith
      rw [drawLinesLoop, if_neg (not_lt.mpr hfit)]
      simp only [List.map_cons, List.take_succ_cons]
      congr 1
      apply ih (cY + lineHeight) k'
      · intro j hj
        have := h1 (j + 1) (Nat.succ_lt_succ hj)
        push_cast at this ⊢
        linarith
      · push_cast at h2 ⊢
        linarith

/-- C3: during block layout, once the vertical cursor plus the line height
would exceed the box bottom, the block emits no further lines (every drawn
line satisfies `drawY + lineHeight ≤ y + h`, in either mode); in particular a
box exactly `N` line-heights tall whose single paragraph wraps to `N + 5`
lines draws exactly the first `N` of them. -/
theorem overflow_clipping (m : List Char → ℚ) (imgW imgH : ℚ)
    (block : TextBlockPayload) (N : ℕ)
    (hfs : 0 < block.style.fontSize)
    (hnn : '\n' ∉ block.text)
    (hbox : block.box.height * imgH = (N : ℚ) * ((block.style.fontSize : ℚ) * (6/5)))
    (hlen : (wrap_text_lines m block.text (block.box.width * imgW)).length = N + 5) :
    (∀ (rlb : Bool) (d : DrawnLine), d ∈ draw_layout_text m imgW imgH block rlb →
        d.drawY + (block.style.fontSize : ℚ) * (6/5)
          ≤ block.box.y * imgH + block.box.height * imgH) ∧
    (draw_layout_text m imgW imgH block false).map (fun d => d.text)
      = (wrap_text_lines m block.text (block.box.width * imgW)).take N ∧
    (draw_layout_text m imgW imgH block false).length = N := by
  have hlh : (0 : ℚ) < (block.style.fontSize : ℚ) * (6/5) := by
    have h0 : (0 : ℚ) < (block.style.fontSize : ℚ) := by exact_mod_cast hfs
    linarith
  have hkey : ∀ alignv : String,
      (drawLinesLoop m alignv (block.box.x * imgW) (block.box.width * imgW)
        ((block.style.fontSize : ℚ) * (6/5))
        (block.box.y * imgH + block.box.height * imgH)
        (wrap_text_lines m block.text (block.box.width * imgW))
        (block.box.y * imgH)).1.map (fun d => d.text)
      = (wrap_text_lines m block.text (block.box.width * imgW)).take N := by
    intro alignv
    apply drawLinesLoop_take
    · intro j hj
      rw [hbox]
      have hj1 : (j : ℚ) + 1 ≤ (N : ℚ) := by exact_mod_cast hj
      have := mul_le_mul_of_nonneg_right hj1 hlh.le
      linarith
    · rw [hbox]
      linarith
  have hunfold : draw_layout_text m imgW imgH block false
      = wrapParasLoop m (if block.style.textAlign = "" then "left" else block.style.textAlign)
          (block.box.x * imgW) (block.box.width * imgW)
          ((block.style.fontSize : ℚ) * (6/5))
          (block.box.y * imgH + block.box.height * imgH)
          (splitNl block.text) (block.box.y * imgH) := rfl
  have h2 : (draw_layout_text m imgW imgH block false).map (fun d => d.text)
      = (wrap_text_lines m block.text (block.box.width * imgW)).take N := by
    rw [hunfold, splitNl_no_newline block.text hnn, wrapParasLoop]
    split <;> split <;>
      first
        | exact hkey _
        | (rw [wrapParasLoop, List.append_nil]; exact hkey _)
  refine ⟨?_, h2, ?_⟩
  · intro rlb d hd
    cases rlb
    · exact (wrapParasLoop_mem m _ _ _ _ _ (splitNl block.text) (block.box.y * imgH) d hd).2
    · exact (drawLinesLoop_mem m _ _ _ _ _ (splitNl block.text) (block.box.y * imgH) d hd).2
  · have h3 := congrArg List.length h2
    rw [List.length_map, List.length_take, hlen] at h3
    rw [h3]
    omega

/-- Witness for `overflow_clipping`: a box one line-height tall (font size 10,
line height 12, box 12 px tall on a unit canvas) over the six-character
spaceless paragraph `"abcdef"`, with a metrics function making every
two-character string overflow, draws exactly the first of the six produced
lines. -/
theorem overflow_clipping_witness :
    0 < (10 : ℤ) ∧ ('\n' ∉ (['a', 'b', 'c', 'd', 'e', 'f'] : List Char)) ∧
    ((12 : ℚ) * 1 = ((1 : ℕ) : ℚ) * (((10 : ℤ) : ℚ) * (6/5))) ∧
    (wrap_text_lines (fun s : List Char => if s.length ≤ 1 then (0 : ℚ) else 2)
        ['a', 'b', 'c', 'd', 'e', 'f'] ((1 : ℚ) * 1)).length = 1 + 5 ∧
    ((draw_layout_text (fun s : List Char => if s.length ≤ 1 then (0 : ℚ) else 2) 1 1
        { key := "k", text := ['a', 'b', 'c', 'd', 'e', 'f'],
          box := { x := 0, y := 0, width := 1, height := 12 },
          style := { fontSize := 10, color := "#fff", fontWeight := 600,
                     fontStyle := "normal", textDecoration := "none",
                     textAlign := "left" } } false).map (fun d => d.text)
      = (wrap_text_lines (fun s : List Char => if s.length ≤ 1 then (0 : ℚ) else 2)
          ['a', 'b', 'c', 'd', 'e', 'f'] ((1 : ℚ) * 1)).take 1 ∧
    (draw_layout_text (fun s : List Char => if s.length ≤ 1 then (0 : ℚ) else 2) 1 1
        { key := "k", text := ['a', 'b', 'c', 'd', 'e', 'f'],
          box := { x := 0, y := 0, width := 1, height := 12 },
          style := { fontSize := 10, color := "#fff", fontWeight := 600,
                     fontStyle := "normal", textDecoration := "none",
                     textAlign := "left" } } false).length = 1) :=
  ⟨by decide, by decide, by norm_num,
    by norm_num; decide,
    (overflow_clipping (fun s : List Char => if s.length ≤ 1 then (0 : ℚ) else 2) 1 1
      { key := "k", text := ['a', 'b', 'c', 'd', 'e', 'f'],
        box := { x := 0, y := 0, width := 1, height := 12 },
        style := { fontSize := 10, color := "#fff", fontWeight := 600,
                   fontStyle := "normal", textDecoration := "none",
                   textAlign := "left" } } 1
      (by decide) (by decide) (by norm_num) (by norm_num; decide)).2⟩

theorem drawLinesLoop_no_overflow (m : List Char → ℚ) (align : String)
    (x w lineHeight yBottom : ℚ) (hlh : 0 < lineHeight) (ls : List (List Char)) :
    ∀ cursorY : ℚ, cursorY + ls.length * lineHeight ≤ yBottom →
      drawLinesLoop m align x w lineHeight yBottom ls cursorY
        = ((specLines lineHeight ls cursorY).map
            (fun p => ⟨p.1, alignX align x w (m p.1), p.2⟩),
           cursorY + ls.length * lineHeight, false) := by
  induction ls with
  | nil =>
    intro cY h
    simp [drawLinesLoop, specLines]
  | cons l rest ih =>
    intro cY h
    have hlen0 : (0 : ℚ) ≤ (rest.length : ℚ) * lineHeight := by positivity
    have harith : cY + ((l :: rest).length : ℚ) * lineHeight
        = (cY + lineHeight) + (rest.length : ℚ) * lineHeight := by
      push_cast [List.length_cons]
      ring
    rw [harith] at h ⊢
    have hfit : cY + lineHeight ≤ yBottom := by linarith
    rw [drawLinesLoop, if_neg (not_lt.mpr hfit), ih (cY + lineHeight) h, specLines]
    simp only [List.map_cons]

theorem wrapHeightNeeded_nonneg (m : List Char → ℚ) (w lineHeight : ℚ)
    (hlh : 0 < lineHeight) (ps : List (List Char)) :
    0 ≤ wrapHeightNeeded m w lineHeight ps := by
  induction ps with
  | nil => simp [wrapHeightNeeded]
  | cons p rest ih =>
    rw [wrapHeightNeeded]
    have h1 : (0 : ℚ) ≤ ((wrap_text_lines m p w).length : ℚ) * lineHeight := by positivity
    have h2 : (0 : ℚ) ≤ (if rest = [] then (0 : ℚ) else lineHeight * (1/5)) := by
      split
      · exact le_refl 0
      · positivity
    linarith

theorem wrapParasLoop_no_overflow (m : List Char → ℚ) (align : String)
    (x w lineHeight yBottom : ℚ) (hlh : 0 < lineHeight) (ps : List (List Char)) :
    ∀ cursorY : ℚ, cursorY + wrapHeightNeeded m w lineHeight ps ≤ yBottom →
      wrapParasLoop m align x w lineHeight yBottom ps cursorY
        = (specWrapParas m w lineHeight ps cursorY).map
            (fun p => ⟨p.1, alignX align x w (m p.1), p.2⟩) := by
  induction ps with
  | nil =>
    intro cY h
    simp [wrapParasLoop, specWrapParas]
  | cons p rest ih =>
    intro cY h
    rw [wrapHeightNeeded] at h
    have hrest := wrapHeightNeeded_nonneg m w lineHeight hlh rest
    have hgap : (0 : ℚ) ≤ (if rest = [] then (0 : ℚ) else lineHeight * (1/5)) := by
      split
      · exact le_refl 0
      · positivity
    have hfit : cY + ((wrap_text_lines m p w).length : ℚ) * lineHeight ≤ yBottom := by
      linarith
    rw [wrapParasLoop, drawLinesLoop_no_overflow m align x w lineHeight yBottom hlh _ cY hfit,
      specWrapParas, List.map_append]
    split
    · next hcontra => exact absurd hcontra (by simp)
    · cases rest with
      | nil =>
        rw [wrapParasLoop]
        simp [specWrapParas]
      | cons r0 rs =>
        have hne : (r0 :: rs : List (List Char)) ≠ [] := by simp
        rw [if_neg hne] at h
        rw [if_neg hne, ih _ (by linarith)]

theorem specMap_text_drawY (alignv : String) (x w : ℚ) (m : List Char → ℚ)
    (l : List (List Char × ℚ)) :
    (l.map (fun p => (⟨p.1, alignX alignv x w (m p.1), p.2⟩ : DrawnLine))).map
      (fun d => (d.text, d.drawY)) = l := by
  induction l with
  | nil => rfl
  | cons a t ih => simp [ih]

/-- C4: in wrap mode (box tall enough that clipping never fires) the block's
lines are drawn at consecutive `lineHeight` steps with an extra
`0.2 × lineHeight` gap after each paragraph except the last, exactly as the
spec-side description `specWrapParas` prescribes; in respect-line-breaks mode
every `\n`-delimited segment is laid out as exactly one line at consecutive
`lineHeight` steps with no extra gap (`specLines`). -/
theorem paragraph_spacing (m : List Char → ℚ) (imgW imgH : ℚ) (block : TextBlockPayload)
    (hfs : 0 < block.style.fontSize)
    (hwrap : wrapHeightNeeded m (block.box.width * imgW)
        ((block.style.fontSize : ℚ) * (6/5)) (splitNl block.text)
        ≤ block.box.height * imgH)
    (hrlb : ((splitNl block.text).length : ℚ) * ((block.style.fontSize : ℚ) * (6/5))
        ≤ block.box.height * imgH) :
    (draw_layout_text m imgW imgH block false).map (fun d => (d.text, d.drawY))
      = specWrapParas m (block.box.width * imgW) ((block.style.fontSize : ℚ) * (6/5))
          (splitNl block.text) (block.box.y * imgH) ∧
    (draw_layout_text m imgW imgH block true).map (fun d => (d.text, d.drawY))
      = specLines ((block.style.fontSize : ℚ) * (6/5)) (splitNl block.text)
          (block.box.y * imgH) := by
  have hlh : (0 : ℚ) < (block.style.fontSize : ℚ) * (6/5) := by
    have h0 : (0 : ℚ) < (block.style.fontSize : ℚ) := by exact_mod_cast hfs
    linarith
  constructor
  · have hunfold : draw_layout_text m imgW imgH block false
        = wrapParasLoop m (if block.style.textAlign = "" then "left" else block.style.textAlign)
            (block.box.x * imgW) (block.box.width * imgW)
            ((block.style.fontSize : ℚ) * (6/5))
            (block.box.y * imgH + block.box.height * imgH)
            (splitNl block.text) (block.box.y * imgH) := rfl
    rw [hunfold,
      wrapParasLoop_no_overflow m _ _ _ _ _ hlh (splitNl block.text) (block.box.y * imgH)
        (by linarith),
      specMap_text_drawY]
  · have hunfold : draw_layout_text m imgW imgH block true
        = (drawLinesLoop m (if block.style.textAlign = "" then "left" else block.style.textAlign)
            (block.box.x * imgW) (block.box.width * imgW)
            ((block.style.fontSize : ℚ) * (6/5))
            (block.box.y * imgH + block.box.height * imgH)
            (splitNl block.text) (block.box.y * imgH)).1 := rfl
    rw [hunfold,
      drawLinesLoop_no_overflow m _ _ _ _ _ hlh (splitNl block.text) (block.box.y * imgH)
        (by linarith)]
    exact specMap_text_drawY _ _ _ _ _

/-- Witness for `paragraph_spacing`: the two-paragraph block `"ab\nc"` in a
tall box (height 50 on a unit canvas, font size 10) with zero-width metrics. -/
theorem paragraph_spacing_witness :
    wrapHeightNeeded (fun _ : List Char => (0 : ℚ)) ((1 : ℚ) * 1)
        (((10 : ℤ) : ℚ) * (6/5)) (splitNl ['a', 'b', '\n', 'c']) ≤ (50 : ℚ) * 1 ∧
    ((splitNl (['a', 'b', '\n', 'c'] : List Char)).length : ℚ)
        * (((10 : ℤ) : ℚ) * (6/5)) ≤ (50 : ℚ) * 1 ∧
    ((draw_layout_text (fun _ : List Char => (0 : ℚ)) 1 1
        { key := "k", text := ['a', 'b', '\n', 'c'],
          box := { x := 0, y := 0, width := 1, height := 50 },
          style := { fontSize := 10, color := "#fff", fontWeight := 600,
                     fontStyle := "normal", textDecoration := "none",
                     textAlign := "left" } } false).map (fun d => (d.text, d.drawY))
      = specWrapParas (fun _ : List Char => (0 : ℚ)) ((1 : ℚ) * 1)
          (((10 : ℤ) : ℚ) * (6/5)) (splitNl ['a', 'b', '\n', 'c']) ((0 : ℚ) * 1) ∧
    (draw_layout_text (fun _ : List Char => (0 : ℚ)) 1 1
        { key := "k", text := ['a', 'b', '\n', 'c'],
          box := { x := 0, y := 0, width := 1, height := 50 },
          style := { fontSize := 10, color := "#fff", fontWeight := 600,
                     fontStyle := "normal", textDecoration := "none",
                     textAlign := "left" } } true).map (fun d => (d.text, d.drawY))
      = specLines (((10 : ℤ) : ℚ) * (6/5)) (splitNl ['a', 'b', '\n', 'c'])
          ((0 : ℚ) * 1)) := by
  have e2 : splitNl ['a', 'b', '\n', 'c'] = [['a', 'b'], ['c']] := by decide
  have e3 : wrap_text_lines (fun _ : List Char => (0 : ℚ)) ['a', 'b'] 1 = [['a', 'b']] := by
    decide
  have e4 : wrap_text_lines (fun _ : List Char => (0 : ℚ)) ['c'] 1 = [['c']] := by decide
  have hw : wrapHeightNeeded (fun _ : List Char => (0 : ℚ)) ((1 : ℚ) * 1)
      (((10 : ℤ) : ℚ) * (6/5)) (splitNl ['a', 'b', '\n', 'c']) ≤ (50 : ℚ) * 1 := by
    rw [e2]
    norm_num [wrapHeightNeeded, e3, e4]
  have hr : ((splitNl (['a', 'b', '\n', 'c'] : List Char)).length : ℚ)
      * (((10 : ℤ) : ℚ) * (6/5)) ≤ (50 : ℚ) * 1 := by
    rw [e2]
    norm_num
  exact ⟨hw, hr,
    paragraph_spacing (fun _ : List Char => (0 : ℚ)) 1 1
      { key := "k", text := ['a', 'b', '\n', 'c'],
        box := { x := 0, y := 0, width := 1, height := 50 },
        style := { fontSize := 10, color := "#fff", fontWeight := 600,
                   fontStyle := "normal", textDecoration := "none",
                   textAlign := "left" } }
      (by decide) hw hr⟩

/-- C5: every line emitted by `draw_layout_text` is drawn at the horizontal
position dictated by `textAlign`: `"center"` at `x + (w - lineWidth)/2`,
`"right"` at `x + (w - lineWidth)`, and any other value — `"left"`, the empty
string, or an unrecognized alignment — falls back to `x`. -/
theorem align_position (m : List Char → ℚ) (imgW imgH : ℚ) (block : TextBlockPayload)
    (rlb : Bool) (d : DrawnLine)
    (hd : d ∈ draw_layout_text m imgW imgH block rlb) :
    (block.style.textAlign = "center" →
      d.drawX = block.box.x * imgW + (block.box.width * imgW - m d.text) / 2) ∧
    (block.style.textAlign = "right" →
      d.drawX = block.box.x * imgW + (block.box.width * imgW - m d.text)) ∧
    (block.style.textAlign ≠ "center" → block.style.textAlign ≠ "right" →
      d.drawX = block.box.x * imgW) := by
  have hax : d.drawX
      = alignX (if block.style.textAlign = "" then "left" else block.style.textAlign)
          (block.box.x * imgW) (block.box.width * imgW) (m d.text) := by
    cases rlb
    · exact (wrapParasLoop_mem m _ _ _ _ _ (splitNl block.text) (block.box.y * imgH) d hd).1
    · exact (drawLinesLoop_mem m _ _ _ _ _ (splitNl block.text) (block.box.y * imgH) d hd).1
  refine ⟨?_, ?_, ?_⟩
  · intro hc
    rw [hax, hc, if_neg (by decide : ¬("center" : String) = ""), alignX, if_pos rfl]
  · intro hc
    rw [hax, hc, if_neg (by decide : ¬("right" : String) = ""), alignX,
      if_neg (by decide : ¬("right" : String) = "center"), if_pos rfl]
  · intro hc hr
    by_cases he : block.style.textAlign = ""
    · rw [hax, if_pos he, alignX, if_neg (by decide : ¬("left" : String) = "center"),
        if_neg (by decide : ¬("left" : String) = "right")]
    · rw [hax, if_neg he, alignX, if_neg hc, if_neg hr]

/-- Witness for `align_position`: a centered single-line block on a unit
canvas with zero-width metrics is drawn at `x + (w - lineWidth)/2`. -/
theorem align_position_witness :
    (⟨['a', 'b'], (1 : ℚ)/2, 0⟩ : DrawnLine) ∈
      draw_layout_text (fun _ : List Char => (0 : ℚ)) 1 1
        { key := "k", text := ['a', 'b'],
          box := { x := 0, y := 0, width := 1, height := 50 },
          style := { fontSize := 10, color := "#fff", fontWeight := 600,
                     fontStyle := "normal", textDecoration := "none",
                     textAlign := "center" } } true ∧
    (⟨['a', 'b'], (1 : ℚ)/2, 0⟩ : DrawnLine).drawX
      = (0 : ℚ) * 1 + ((1 : ℚ) * 1 - 0) / 2 := by
  have es : splitNl ['a', 'b'] = [['a', 'b']] := by decide
  have hd : (⟨['a', 'b'], (1 : ℚ)/2, 0⟩ : DrawnLine) ∈
      draw_layout_text (fun _ : List Char => (0 : ℚ)) 1 1
        { key := "k", text := ['a', 'b'],
          box := { x := 0, y := 0, width := 1, height := 50 },
          style := { fontSize := 10, color := "#fff", fontWeight := 600,
                     fontStyle := "normal", textDecoration := "none",
                     textAlign := "center" } } true := by
    norm_num [draw_layout_text, es, drawLinesLoop, alignX, DrawnLine.mk.injEq,
      (by decide : ¬("center" : String) = ""), (by decide : ¬("center" : String) = "right"),
      (by decide : ¬("left" : String) = "center")]
  exact ⟨hd,
    (align_position (fun _ : List Char => (0 : ℚ)) 1 1
      { key := "k", text := ['a', 'b'],
        box := { x := 0, y := 0, width := 1, height := 50 },
        style := { fontSize := 10, color := "#fff", fontWeight := 600,
                   fontStyle := "normal", textDecoration := "none",
                   textAlign := "center" } } true
      ⟨['a', 'b'], (1 : ℚ)/2, 0⟩ hd).1 rfl⟩

/-- Counterexample to C6 as stated: at line height `25.2` (e.g. font size 21)
the code's stroke thickness `max(1, int(0.06 × lineHeight))` is `1`, whereas
the claimed `max(1, round(0.06 × lineHeight))` is `2`, because Python's
`int(...)` truncates `1.512` to `1` while rounding gives `2`. -/
theorem underline_round_counterexample :
    (draw_line_with_style (fun _ : List Char => (10 : ℚ)) ['a'] 0 0 "#fff" true false false
        (126/5)).filter isRuleOp
      = [CanvasOp.line 0 ((126/5) * (17/20)) 10 ((126/5) * (17/20)) "#fff" 1] ∧
    (1 : ℤ) ≠ max 1 (round ((126/5 : ℚ) * (3/50))) := by
  have hprod : ((126/5 : ℚ) * (3/50)) = 189/125 := by norm_num
  have hfl : ⌊(189/125 : ℚ)⌋ = 1 := by
    rw [Int.floor_eq_iff]
    constructor <;> norm_num
  have hp : pyInt ((126/5 : ℚ) * (3/50)) = 1 := by
    rw [pyInt, if_pos (by norm_num), hprod, hfl]
  have hround : round ((126/5 : ℚ) * (3/50)) = 2 := by
    rw [hprod, round_eq]
    have h2 : (189/125 : ℚ) + 1/2 = 503/250 := by norm_num
    rw [h2, Int.floor_eq_iff]
    constructor <;> norm_num
  have hp2 : pyInt (189/125 : ℚ) = 1 := by
    rw [pyInt, if_pos (by norm_num), hfl]
  constructor
  · norm_num [draw_line_with_style, isRuleOp, hp, hp2]
  · rw [hround]
    decide

/-- C6 (amended): when underline is requested, `draw_line_with_style` draws
exactly one horizontal rule — for every combination of bold and italic — as
its last operation, directly on the canvas (hence after glyph compositing
and unaffected by the italic shear), at `y + 0.85 × lineHeight`, spanning
from `x` to `x` plus the measured advance width, in the line's color, with
stroke thickness `max(1, int(0.06 × lineHeight))` (Python `int`, i.e.
truncation, not rounding). -/
theorem underline_rule (m : List Char → ℚ) (text : List Char) (x y : ℚ)
    (color : String) (bold italic : Bool) (lineHeight : ℚ) :
    (draw_line_with_style m text x y color true bold italic lineHeight).filter isRuleOp
      = [CanvasOp.line x (y + lineHeight * (17/20)) (x + m text) (y + lineHeight * (17/20))
          color (max 1 (pyInt (lineHeight * (3/50))))] ∧
    (draw_line_with_style m text x y color true bold italic lineHeight).getLast?
      = some (CanvasOp.line x (y + lineHeight * (17/20)) (x + m text)
          (y + lineHeight * (17/20)) color (max 1 (pyInt (lineHeight * (3/50))))) := by
  cases bold <;> cases italic <;>
    simp [draw_line_with_style, isRuleOp, List.filter_append]

/-- C7: in the non-italic case `draw_line_with_style` stamps the glyph text
exactly three times, at offsets `(0,0)`, `(1,0)`, `(0,1)` from `(x, y)`, all
in the requested color, when bold, and exactly once at `(x, y)` when not
bold; in the italic case the same three-versus-one stamping rule is applied
to the stamps inside the off-screen buffer that is sheared and pasted. -/
theorem bold_stamp_offsets (m : List Char → ℚ) (text : List Char) (x y : ℚ)
    (color : String) (underline : Bool) (lineHeight : ℚ) (bold : Bool) :
    ((draw_line_with_style m text x y color underline bold false lineHeight).filter isTextOp
      = if bold then
          [CanvasOp.text x y text color, CanvasOp.text (x + 1) y text color,
           CanvasOp.text x (y + 1) text color]
        else [CanvasOp.text x y text color]) ∧
    ((draw_line_with_style m text x y color underline bold true lineHeight).filter isPasteOp
      = [CanvasOp.pasteSheared (pyInt x) (pyInt y) (pyInt (m text) + 20)
          (pyInt (lineHeight * (6/5))) (-(1/4))
          (if bold then [⟨0, 0, text, color⟩, ⟨1, 0, text, color⟩, ⟨0, 1, text, color⟩]
           else [⟨0, 0, text, color⟩])]) := by
  cases bold <;> cases underline <;>
    simp [draw_line_with_style, isTextOp, isPasteOp, List.filter_append]

/-- Counterexample to C8 as stated: a PNG preview with the explicitly
requested background `"#ff0000"` still allocates a fully transparent canvas;
the requested background is ignored whenever the output format is PNG. -/
theorem preview_background_counterexample :
    (draw_text_preview_canvas "png" "#ff0000").2 = Fill.transparent ∧
    Fill.transparent ≠ Fill.color "#ff0000" := by
  constructor
  · decide
  · decide

/-- C8 (amended): the preview canvas is fully transparent exactly when the
requested output format, lowercased, is `"png"` (the alpha-capable format),
regardless of any requested background; for every other format the canvas is
allocated in RGB mode filled with the requested background color. -/
theorem preview_background_fill (imageFormat background : String) :
    ((draw_text_preview_canvas imageFormat background).2 = Fill.transparent
        ↔ pyLower imageFormat = "png") ∧
    (pyLower imageFormat ≠ "png" →
      draw_text_preview_canvas imageFormat background = ("RGB", Fill.color background)) := by
  constructor
  · constructor
    · intro h
      by_contra hne
      rw [draw_text_preview_canvas, if_neg hne] at h
      exact Fill.noConfusion h
    · intro h
      rw [draw_text_preview_canvas, if_pos h]
  · intro h
    rw [draw_text_preview_canvas, if_neg h]

/-- Witness for `preview_background_fill`: a WEBP preview canvas is RGB
filled with the requested background. -/
theorem preview_background_fill_witness :
    draw_text_preview_canvas "webp" "#abc" = ("RGB", Fill.color "#abc") :=
  (preview_background_fill "webp" "#abc").2 (by decide)

/-- Counterexample to C9 as stated: `fonts_layout` begins drawing for a
request with positive canvas dimensions whose only block has font size 0 —
no font-size precondition check exists on the layout path, so a nonpositive
font size is not rejected before drawing begins. -/
theorem layout_fontsize_precheck_counterexample :
    fonts_layout_begins_drawing zeroFontSizeLayoutRequest = true ∧
    (zeroFontSizeLayoutRequest.blocks.map fun b => b.style.fontSize) = [0] := by
  constructor
  · decide
  · rfl

/-- C9 (amended): `fonts_preview` rejects size, width or height `≤ 0` before
any drawing begins, and `fonts_layout` rejects width or height `≤ 0` before
any drawing begins; but the layout precondition phase never inspects the
blocks, so block font sizes are not pre-validated (a nonpositive font size
only fails later, at font-load time inside rendering). -/
theorem dimension_prechecks (size width height : ℤ) (format : String)
    (req : LayoutRequestModel) (blocks1 blocks2 : List TextBlockPayload) :
    (fonts_preview_begins_drawing size width height format = true →
      0 < size ∧ 0 < width ∧ 0 < height) ∧
    (fonts_layout_begins_drawing req = true → 0 < req.width ∧ 0 < req.height) ∧
    fonts_layout_begins_drawing { req with blocks := blocks1 }
      = fonts_layout_begins_drawing { req with blocks := blocks2 } := by
  refine ⟨?_, ?_, ?_⟩
  · intro h
    rw [fonts_preview_begins_drawing] at h
    split at h
    · exact absurd h (by simp)
    · next hcond =>
      push_neg at hcond
      exact hcond
  · intro h
    rw [fonts_layout_begins_drawing] at h
    split at h
    · exact absurd h (by simp)
    · next hcond =>
      push_neg at hcond
      exact hcond
  · cases req
    rfl

/-- Witness for `dimension_prechecks` at accepted preview and layout
requests. -/
theorem dimension_prechecks_witness :
    ((0 : ℤ) < 64 ∧ (0 : ℤ) < 1200 ∧ (0 : ℤ) < 600) ∧ ((0 : ℤ) < 100 ∧ (0 : ℤ) < 100) :=
  ⟨(dimension_prechecks 64 1200 600 "png" zeroFontSizeLayoutRequest [] []).1 (by decide),
   (dimension_prechecks 64 1200 600 "png" zeroFontSizeLayoutRequest [] []).2.1 (by decide)⟩

theorem pySplitAux_append_word (wchars : List Char) :
    ∀ (t acc : List Char), (∀ c ∈ wchars, pyIsSpace c = false) →
      pySplitAux (wchars ++ t) acc = pySplitAux t (acc ++ wchars) := by
  induction wchars with
  | nil =>
    intro t acc h
    rw [List.nil_append, List.append_nil]
  | cons c cs ih =>
    intro t acc h
    have hc := h c (List.mem_cons_self c cs)
    rw [List.cons_append, pySplitAux, hc]
    simp only [Bool.false_eq_true, if_false]
    rw [ih t (acc ++ [c]) fun c' hc' => h c' (List.mem_cons_of_mem c hc'),
      List.append_assoc]
    rfl

theorem pySplitAux_space_cons (t acc : List Char) (h : acc ≠ []) :
    pySplitAux (' ' :: t) acc = acc :: pySplitAux t [] := by
  rw [pySplitAux]
  have hsp : pyIsSpace ' ' = true := by decide
  rw [hsp]
  simp only [if_true, if_neg h]

theorem pySplit_word (wd : List Char) (h : goodWord wd) : pySplit wd = [wd] := by
  have h1 : pySplitAux (wd ++ []) [] = pySplitAux [] ([] ++ wd) :=
    pySplitAux_append_word wd [] [] h.2
  rw [List.append_nil, List.nil_append] at h1
  rw [pySplit, h1, pySplitAux, if_neg h.1]

theorem pySplit_word_cons (wd t : List Char) (h : goodWord wd) :
    pySplit (wd ++ ' ' :: t) = wd :: pySplit t := by
  rw [pySplit, pySplitAux_append_word wd (' ' :: t) [] h.2, List.nil_append,
    pySplitAux_space_cons t wd h.1]
  rfl

theorem pySplitAux_good (s : List Char) :
    ∀ acc : List Char, (acc = [] ∨ goodWord acc) →
      ∀ wd ∈ pySplitAux s acc, goodWord wd := by
  induction s with
  | nil =>
    intro acc hacc wd hwd
    rw [pySplitAux] at hwd
    split at hwd
    · cases hwd
    · next hne =>
      rcases List.mem_singleton.mp hwd with rfl
      rcases hacc with h | h
      · exact absurd h hne
      · exact h
  | cons c cs ih =>
    intro acc hacc wd hwd
    rw [pySplitAux] at hwd
    split at hwd
    · split at hwd
      · exact ih [] (Or.inl rfl) wd hwd
      · next hne =>
        rcases List.mem_cons.mp hwd with rfl | h
        · rcases hacc with h | h
          · exact absurd h hne
          · exact h
        · exact ih [] (Or.inl rfl) wd h
    · next hcsp =>
      apply ih (acc ++ [c]) _ wd hwd
      right
      constructor
      · simp
      · intro c' hc'
        rcases List.mem_append.mp hc' with h | h
        · rcases hacc with rfl | hg
          · cases h
          · exact hg.2 c' h
        · rcases List.mem_singleton.mp h with rfl
          exact Bool.eq_false_iff.mpr hcsp

theorem pySplit_good (s : List Char) : ∀ wd ∈ pySplit s, goodWord wd :=
  pySplitAux_good s [] (Or.inl rfl)

theorem joinSpace_cons (l : List Char) (ls : List (List Char)) (h : ls ≠ []) :
    joinSpace (l :: ls) = l ++ ' ' :: joinSpace ls := by
  cases ls with
  | nil => exact absurd rfl h
  | cons a t => rfl

theorem joinSpace_head (w0 : List Char) (rest : List (List Char)) :
    ∃ t : List Char, joinSpace (w0 :: rest) = w0 ++ t := by
  cases rest with
  | nil => exact ⟨[], (List.append_nil w0).symm⟩
  | cons a t => exact ⟨' ' :: joinSpace (a :: t), rfl⟩

theorem joinSpace_ne_nil (ws : List (List Char)) (hne : ws ≠ [])
    (hg : ∀ w ∈ ws, goodWord w) : joinSpace ws ≠ [] := by
  cases ws with
  | nil => exact absurd rfl hne
  | cons w t =>
    obtain ⟨u, hu⟩ := joinSpace_head w t
    rw [hu]
    have hw : w ≠ [] := (hg w (List.mem_cons_self w t)).1
    cases w with
    | nil => exact absurd rfl hw
    | cons c cs => simp

theorem joinSpace_concat (ws : List (List Char)) (wd : List Char) (h : ws ≠ []) :
    joinSpace (ws ++ [wd]) = joinSpace ws ++ ' ' :: wd := by
  induction ws with
  | nil => exact absurd rfl h
  | cons w t ih =>
    cases t with
    | nil => rfl
    | cons a s =>
      rw [List.cons_append, joinSpace_cons w ((a :: s) ++ [wd]) (by simp),
        joinSpace_cons w (a :: s) (by simp), ih (by simp), List.append_assoc]
      rfl

theorem pyStrip_eq_self (l : List Char) (c b : Char) (t s : List Char)
    (h1 : l = c :: t) (h2 : pyIsSpace c = false)
    (h3 : l.reverse = b :: s) (h4 : pyIsSpace b = false) : pyStrip l = l := by
  rw [pyStrip]
  have e1 : l.dropWhile pyIsSpace = l := by
    rw [h1, List.dropWhile_cons, h2]
    simp
  rw [e1, h3, List.dropWhile_cons, h4]
  simp only [Bool.false_eq_true, if_false]
  rw [← h3, List.reverse_reverse]

theorem pyStrip_space_word (wd : List Char) (h : goodWord wd) :
    pyStrip (' ' :: wd) = wd := by
  rw [pyStrip]
  have e1 : (' ' :: wd).dropWhile pyIsSpace = wd.dropWhile pyIsSpace := by
    rw [List.dropWhile_cons]
    simp [show pyIsSpace ' ' = true from by decide]
  have e2 : wd.dropWhile pyIsSpace = wd := by
    cases wd with
    | nil => rfl
    | cons c cs =>
      rw [List.dropWhile_cons, h.2 c (List.mem_cons_self c cs)]
      simp
  rw [e1, e2]
  cases hrev : wd.reverse with
  | nil => exact absurd (List.reverse_eq_nil_iff.mp hrev) h.1
  | cons b s =>
    have hb : b ∈ wd := by
      rw [← List.mem_reverse, hrev]
      exact List.mem_cons_self b s
    rw [List.dropWhile_cons, h.2 b hb]
    simp only [Bool.false_eq_true, if_false]
    rw [← hrev, List.reverse_reverse]

theorem pyStrip_join_word (ws : List (List Char)) (wd : List Char)
    (hne : ws ≠ []) (hg : ∀ w ∈ ws, goodWord w) (hwd : goodWord wd) :
    pyStrip (joinSpace ws ++ ' ' :: wd) = joinSpace ws ++ ' ' :: wd := by
  obtain ⟨w0, rest, rfl⟩ : ∃ w0 rest, ws = w0 :: rest := by
    cases ws with
    | nil => exact absurd rfl hne
    | cons a t => exact ⟨a, t, rfl⟩
  obtain ⟨u, hu⟩ := joinSpace_head w0 rest
  have hw0 : goodWord w0 := hg w0 (List.mem_cons_self w0 rest)
  obtain ⟨c, t0, rfl⟩ : ∃ c t0, w0 = c :: t0 := by
    cases w0 with
    | nil => exact absurd rfl hw0.1
    | cons c t0 => exact ⟨c, t0, rfl⟩
  have hhead : joinSpace ((c :: t0) :: rest) ++ ' ' :: wd
      = c :: (t0 ++ u ++ ' ' :: wd) := by
    rw [hu]
    simp [List.append_assoc]
  obtain ⟨b, s, hrev⟩ : ∃ b s, wd.reverse = b :: s := by
    cases hw : wd.reverse with
    | nil => exact absurd (List.reverse_eq_nil_iff.mp hw) hwd.1
    | cons b s => exact ⟨b, s, rfl⟩
  have hb : b ∈ wd := by
    rw [← List.mem_reverse, hrev]
    exact List.mem_cons_self b s
  have hrev2 : (joinSpace ((c :: t0) :: rest) ++ ' ' :: wd).reverse
      = b :: (s ++ ' ' :: (joinSpace ((c :: t0) :: rest)).reverse) := by
    rw [List.reverse_append, List.reverse_cons, hrev]
    simp [List.append_assoc]
  exact pyStrip_eq_self _ c b _ _ hhead (hw0.2 c (List.mem_cons_self c t0)) hrev2
    (hwd.2 b hb)

theorem pySplit_join_append (g : List (List Char)) :
    ∀ t : List Char, g ≠ [] → (∀ w ∈ g, goodWord w) →
      pySplit (joinSpace g ++ ' ' :: t) = g ++ pySplit t := by
  induction g with
  | nil =>
    intro t h _
    exact absurd rfl h
  | cons w rest ih =>
    intro t _ hg
    cases rest with
    | nil =>
      rw [show joinSpace [w] = w from rfl,
        pySplit_word_cons w t (hg w (List.mem_cons_self w []))]
      rfl
    | cons a tl =>
      rw [joinSpace_cons w (a :: tl) (by simp), List.append_assoc, List.cons_append,
        pySplit_word_cons w _ (hg w (List.mem_cons_self w (a :: tl))),
        ih t (by simp) fun w' hw' => hg w' (List.mem_cons_of_mem w hw')]
      rfl

theorem pySplit_joinSpace (ws : List (List Char)) :
    (∀ w ∈ ws, goodWord w) → pySplit (joinSpace ws) = ws := by
  induction ws with
  | nil =>
    intro _
    rfl
  | cons w rest ih =>
    intro hg
    cases rest with
    | nil => exact pySplit_word w (hg w (List.mem_cons_self w []))
    | cons a tl =>
      rw [joinSpace_cons w (a :: tl) (by simp),
        pySplit_word_cons w _ (hg w (List.mem_cons_self w (a :: tl))),
        ih fun w' hw' => hg w' (List.mem_cons_of_mem w hw')]

theorem pySplit_join_groups (groups : List (List (List Char))) :
    (∀ g ∈ groups, g ≠ [] ∧ ∀ w ∈ g, goodWord w) →
      pySplit (joinSpace (groups.map joinSpace)) = groups.flatten := by
  induction groups with
  | nil =>
    intro _
    rfl
  | cons g rest ih =>
    intro hg
    cases rest with
    | nil =>
      have hgg := hg g (List.mem_cons_self g [])
      rw [show (([g] : List (List (List Char))).map joinSpace) = [joinSpace g] from rfl,
        show joinSpace [joinSpace g] = joinSpace g from rfl,
        pySplit_joinSpace g hgg.2]
      simp
    | cons g2 tl =>
      have hgg := hg g (List.mem_cons_self g (g2 :: tl))
      rw [List.map_cons, joinSpace_cons _ _ (by simp),
        pySplit_join_append g _ hgg.1 hgg.2,
        ih fun g' hg' => hg g' (List.mem_cons_of_mem g hg')]
      simp

theorem wrapWordsAux_groups (m : List Char → ℚ) (maxWidth : ℚ) :
    ∀ (ws : List (List Char)) (groups : List (List (List Char)))
      (curWs : List (List Char)),
      (∀ w ∈ ws, goodWord w ∧ m w ≤ maxWidth) →
      (∀ g ∈ groups, g ≠ [] ∧ ∀ w ∈ g, goodWord w) →
      (∀ w ∈ curWs, goodWord w) →
      ∃ groups' : List (List (List Char)),
        (∀ g ∈ groups', g ≠ [] ∧ ∀ w ∈ g, goodWord w) ∧
        wrapWordsAux m maxWidth ws (groups.map joinSpace) (joinSpace curWs)
          = groups'.map joinSpace ∧
        groups'.flatten = groups.flatten ++ curWs ++ ws := by
  intro ws
  induction ws with
  | nil =>
    intro groups curWs hws hgroups hcur
    cases curWs with
    | nil =>
      refine ⟨groups, hgroups, ?_, by simp⟩
      rw [wrapWordsAux]
      rfl
    | cons w t =>
      have hne : joinSpace (w :: t) ≠ [] :=
        joinSpace_ne_nil (w :: t) (by simp) hcur
      refine ⟨groups ++ [w :: t], ?_, ?_, ?_⟩
      · intro g hgmem
        rcases List.mem_append.mp hgmem with h | h
        · exact hgroups g h
        · rcases List.mem_singleton.mp h with rfl
          exact ⟨by simp, hcur⟩
      · rw [wrapWordsAux, if_neg hne, List.map_append]
        rfl
      · simp [List.flatten_append]
  | cons wd ws' ih =>
    intro groups curWs hws hgroups hcur
    have hwd := hws wd (List.mem_cons_self wd ws')
    have hws' : ∀ w ∈ ws', goodWord w ∧ m w ≤ maxWidth :=
      fun w hw => hws w (List.mem_cons_of_mem wd hw)
    cases curWs with
    | nil =>
      have ht : pyStrip (joinSpace ([] : List (List Char)) ++ ' ' :: wd) = wd := by
        rw [show joinSpace ([] : List (List Char)) = [] from rfl, List.nil_append]
        exact pyStrip_space_word wd hwd.1
      rw [wrapWordsAux, ht, if_pos hwd.2]
      have hrec := ih groups [wd] hws' hgroups
        (by
          intro w hw
          rcases List.mem_singleton.mp hw with rfl
          exact hwd.1)
      rw [show joinSpace [wd] = wd from rfl] at hrec
      obtain ⟨groups', hg', heq, hflat⟩ := hrec
      refine ⟨groups', hg', heq, ?_⟩
      rw [hflat]
      simp
    | cons w0 t0 =>
      have hcws : (w0 :: t0 : List (List Char)) ≠ [] := by simp
      have ht : pyStrip (joinSpace (w0 :: t0) ++ ' ' :: wd)
          = joinSpace ((w0 :: t0) ++ [wd]) := by
        rw [pyStrip_join_word (w0 :: t0) wd hcws hcur hwd.1,
          joinSpace_concat (w0 :: t0) wd hcws]
      by_cases hfit : m (joinSpace ((w0 :: t0) ++ [wd])) ≤ maxWidth
      · rw [wrapWordsAux, ht, if_pos hfit]
        have hrec := ih groups ((w0 :: t0) ++ [wd]) hws' hgroups
          (by
            intro w hw
            rcases List.mem_append.mp hw with h | h
            · exact hcur w h
            · rcases List.mem_singleton.mp h with rfl
              exact hwd.1)
        obtain ⟨groups', hg', heq, hflat⟩ := hrec
        refine ⟨groups', hg', heq, ?_⟩
        rw [hflat]
        simp [List.append_assoc]
      · rw [wrapWordsAux, ht, if_neg hfit]
        have hne : joinSpace (w0 :: t0) ≠ [] :=
          joinSpace_ne_nil (w0 :: t0) hcws hcur
        rw [if_neg hne, if_pos hwd.2]
        have hlines : groups.map joinSpace ++ [joinSpace (w0 :: t0)]
            = (groups ++ [w0 :: t0]).map joinSpace := by
          rw [List.map_append]
          rfl
        rw [hlines]
        have hrec := ih (groups ++ [w0 :: t0]) [wd] hws'
          (by
            intro g hgmem
            rcases List.mem_append.mp hgmem with h | h
            · exact hgroups g h
            · rcases List.mem_singleton.mp h with rfl
              exact ⟨hcws, hcur⟩)
          (by
            intro w hw
            rcases List.mem_singleton.mp hw with rfl
            exact hwd.1)
        rw [show joinSpace [wd] = wd from rfl] at hrec
        obtain ⟨groups', hg', heq, hflat⟩ := hrec
        refine ⟨groups', hg', heq, ?_⟩
        rw [hflat]
        simp [List.flatten_append, List.append_assoc]

/-- Counterexample to C2 as stated: for the whitespace-containing paragraph
`"a bcd"` and a width that the word `"bcd"` alone exceeds, the
character-level fallback breaks `"bcd"` across lines, so rejoining the
produced lines `["a", "bc", "d"]` with single spaces yields the words
`["a", "bc", "d"]`, not the original words `["a", "bcd"]`. -/
theorem wrap_reconstruction_counterexample :
    ((['a', ' ', 'b', 'c', 'd'] : List Char).any pyIsSpace = true) ∧
    pySplit (joinSpace (wrap_text_lines
        (fun s : List Char => if s.length ≤ 2 then (0 : ℚ) else 3)
        ['a', ' ', 'b', 'c', 'd'] 2))
      ≠ pySplit ['a', ' ', 'b', 'c', 'd'] := by
  constructor
  · decide
  · decide

/-- C2 (amended): for every whitespace-containing paragraph all of whose
whitespace-separated words fit within `maxWidth`, splitting the space-joined
output of `wrap_text_lines` reproduces exactly the paragraph's words in
their original order, with no word dropped, duplicated or broken.  (Without
the all-words-fit proviso the claim fails: an oversized word is broken by
the character-level fallback.) -/
theorem wrap_reconstruction (m : List Char → ℚ) (text : List Char) (maxWidth : ℚ)
    (hws : text.any pyIsSpace = true)
    (hfit : ∀ wd ∈ pySplit text, m wd ≤ maxWidth) :
    pySplit (joinSpace (wrap_text_lines m text maxWidth)) = pySplit text := by
  have hne : text ≠ [] := by
    intro h
    rw [h] at hws
    exact Bool.noConfusion hws
  rw [wrap_text_lines, if_neg hne, if_neg (by rw [hws]; decide)]
  obtain ⟨groups', hg', heq, hflat⟩ :=
    wrapWordsAux_groups m maxWidth (pySplit text) [] []
      (fun w hw => ⟨pySplit_good text w hw, hfit w hw⟩)
      (by intro g hg; cases hg)
      (by intro w hw; cases hw)
  rw [show (([] : List (List (List Char))).map joinSpace) = [] from rfl,
    show joinSpace ([] : List (List Char)) = [] from rfl] at heq
  rw [heq, pySplit_join_groups groups' hg', hflat]
  simp

/-- Witness for `wrap_reconstruction`: the paragraph `"ab c"` at width 2,
where both words fit. -/
theorem wrap_reconstruction_witness :
    ((['a', 'b', ' ', 'c'] : List Char).any pyIsSpace = true) ∧
    (∀ wd ∈ pySplit ['a', 'b', ' ', 'c'],
      (fun s : List Char => if s.length ≤ 2 then (0 : ℚ) else 3) wd ≤ 2) ∧
    pySplit (joinSpace (wrap_text_lines
        (fun s : List Char => if s.length ≤ 2 then (0 : ℚ) else 3)
        ['a', 'b', ' ', 'c'] 2))
      = pySplit ['a', 'b', ' ', 'c'] :=
  ⟨by decide, by decide,
    wrap_reconstruction (fun s : List Char => if s.length ≤ 2 then (0 : ℚ) else 3)
      ['a', 'b', ' ', 'c'] 2 (by decide) (by decide)⟩
